import Mathlib

/-!
Verification of the ProLink label-normalization engine
(`ProLink/modules/subprocess_functions.py` and
`ProLink/modules/uniprot_sequences.py`).

The Python code works by ordered regular-expression rewriting.  We embed it
shallowly: a small backtracking regular-expression matcher `reM` (greedy
quantifiers, leftmost alternation, i.e. Python `re` semantics) over
`List Char`, plus the concrete patterns of the source, stage by stage.
Machine floating point, the network, and the file system do not occur in the
normalization core; the orchestrator's file effects are modelled explicitly.
-/

set_option maxRecDepth 8000

/-! ## Character classes used by the source patterns -/

/-- Python `\s` on ASCII text: space, tab, newline, carriage return,
vertical tab, form feed. -/
def isSpaceChar (c : Char) : Bool :=
  c == ' ' || c == '\t' || c == '\n' || c == '\r' || c == '\x0b' || c == '\x0c'

/-- `[A-Za-z0-9]`. -/
def isAlnumChar (c : Char) : Bool := c.isAlpha || c.isDigit

/-- `[_\s]`. -/
def isUndSpace (c : Char) : Bool := c == '_' || isSpaceChar c

/-- `[A-Za-z0-9\.]`. -/
def isAlnumDot (c : Char) : Bool := isAlnumChar c || c == '.'

/-- `[\s_-]`. -/
def isSepSUD (c : Char) : Bool := isSpaceChar c || c == '_' || c == '-'

/-- `[-_]`. -/
def isDashUnd (c : Char) : Bool := c == '-' || c == '_'

/-- The unquoted-label class of `clean_newick_string`: `[A-Za-z0-9 _\.\-]`
(a literal space, not `\s`). -/
def isUnqChar (c : Char) : Bool :=
  isAlnumChar c || c == ' ' || c == '_' || c == '.' || c == '-'

/-- `C` of the cluster marker under `re.IGNORECASE`. -/
def isCc (c : Char) : Bool := c == 'C' || c == 'c'

/-- Python `\w` on ASCII text (for the `\b` boundaries of line 39). -/
def isWordChar (c : Char) : Bool := c.isAlpha || c.isDigit || c == '_'

/-- Single-quote character (code 39). -/
def squote : Char := Char.ofNat 39

/-- Double-quote character (code 34). -/
def dquote : Char := Char.ofNat 34

/-- The set stripped by `label.strip("'\"")` (line 29). -/
def isQuoteChar (c : Char) : Bool := c == squote || c == dquote

/-- The set stripped by `label.strip(" _")` (line 43). -/
def isSpaceUnd (c : Char) : Bool := c == ' ' || c == '_'

/-! ## A small regular-expression engine with Python `re` semantics -/

/-- Regular expressions: character classes, sequence, alternation (first
alternative preferred), greedy Kleene star. -/
inductive RE where
  | eps : RE
  | cls (p : Char → Bool) : RE
  | seq (a b : RE) : RE
  | alt (a b : RE) : RE
  | star (a : RE) : RE

/-- Backtracking matcher in continuation-passing style.  `reM fuel r s k`
tries to match a prefix of `s` against `r` and passes the remaining suffix to
`k`; alternatives are explored in Python order (left alternative first, star
greedy).  `fuel` decreases on every call; with the generous fuel supplied by
the wrappers below it is never exhausted on the inputs considered. -/
def reM : Nat → RE → List Char → (List Char → Option (List Char)) → Option (List Char)
  | 0, _, _, _ => none
  | _ + 1, RE.eps, s, k => k s
  | _ + 1, RE.cls _, [], _ => none
  | _ + 1, RE.cls p, c :: t, k => if p c then k t else none
  | fuel + 1, RE.seq a b, s, k => reM fuel a s (fun t => reM fuel b t k)
  | fuel + 1, RE.alt a b, s, k => (reM fuel a s k).orElse (fun _ => reM fuel b s k)
  | fuel + 1, RE.star a, s, k =>
      (reM fuel a s (fun t =>
        if t.length < s.length then reM fuel (RE.star a) t k else none)).orElse
        (fun _ => k s)

/-- Fuel that is ample for every pattern of this file. -/
def reFuel (s : List Char) : Nat := (s.length + 2) * 1000

/-- Global substitution, Python `re.sub(r, f, s)`: scan left to right, replace
every leftmost non-overlapping match by `f` applied to the matched span,
resume after the match.  (None of the patterns in this file can match the
empty string, so the no-progress branch never fires.) -/
def reSubL (r : RE) (f : List Char → List Char) : Nat → List Char → List Char
  | 0, s => s
  | _ + 1, [] => []
  | n + 1, c :: t =>
    match reM (reFuel (c :: t)) r (c :: t) some with
    | some rem =>
        if rem.length < (c :: t).length then
          f (List.take ((c :: t).length - rem.length) (c :: t)) ++ reSubL r f n rem
        else c :: reSubL r f n t
    | none => c :: reSubL r f n t

/-- `re.sub(r, "", s)`. -/
def reSubDel (r : RE) (s : List Char) : List Char :=
  reSubL r (fun _ => []) (s.length + 1) s

/-- Python `re.search`: the leftmost match, returned as
`(before, match, after)`.  (The patterns it is used with below cannot match
the empty string.) -/
def reSearchSplit (r : RE) : List Char → Option (List Char × List Char × List Char)
  | [] => none
  | c :: t =>
    match reM (reFuel (c :: t)) r (c :: t) some with
    | some rem =>
        if rem.length < (c :: t).length then
          some ([], List.take ((c :: t).length - rem.length) (c :: t), rem)
        else some ([], [], c :: t)
    | none => (reSearchSplit r t).map (fun pr => (c :: pr.1, pr.2.1, pr.2.2))

/-- A literal character. -/
def litc (c : Char) : RE := RE.cls (fun d => d == c)

/-- A literal character under `re.IGNORECASE`. -/
def ciLitc (c : Char) : RE := RE.cls (fun d => d.toLower == c.toLower)

/-- `r+`. -/
def plusRE (r : RE) : RE := RE.seq r (RE.star r)

/-- A case-insensitive literal word. -/
def ciStrRE (s : List Char) : RE := s.foldr (fun c acc => RE.seq (ciLitc c) acc) RE.eps

/-- `r` repeated exactly `n` times (`r{n}`). -/
def repRE : Nat → RE → RE
  | 0, _ => RE.eps
  | n + 1, r => RE.seq r (repRE n r)

/-! ## The patterns of `clean_label` (lines 29-51) -/

/-- Line 31: `WP[\s_]\d{9}\.\d` — no `re.IGNORECASE`, prefix exactly `WP`. -/
def reWP : RE :=
  RE.seq (litc 'W') (RE.seq (litc 'P') (RE.seq (RE.cls isUndSpace)
    (RE.seq (repRE 9 (RE.cls Char.isDigit)) (RE.seq (litc '.') (RE.cls Char.isDigit)))))

/-- Line 33: `MULTISPECIES:\s*`, `re.IGNORECASE`. -/
def reMulti : RE :=
  RE.seq (ciStrRE "MULTISPECIES".data) (RE.seq (litc ':') (RE.star (RE.cls isSpaceChar)))

/-- Lines 36-37: the protein-name pattern.  For a protein name made of
letters, digits and underscores (as the default `alkene_reductase`),
`re.escape` on Python 3.7+ returns the name unchanged — it escapes only
regex-special characters, and `_` is not one — so the subsequent
`.replace(r'\_', r'[\s_]+')` finds no `\_` and is a no-op.  The compiled
pattern is therefore the literal name, matched case-insensitively. -/
def reProtein (name : List Char) : RE := ciStrRE name

/-- The protein-name stage of line 37. -/
def removeProteinName (name : List Char) (l : List Char) : List Char :=
  reSubDel (reProtein name) l

/-- Stage of line 31. -/
def removeWPCodes (l : List Char) : List Char := reSubDel reWP l

/-- Case-insensitive literal match of `pat` against a prefix of `s`,
returning the rest. -/
def ciMatchLit : List Char → List Char → Option (List Char)
  | [], s => some s
  | _ :: _, [] => none
  | p :: ps, c :: cs => if c.toLower == p.toLower then ciMatchLit ps cs else none

/-- Line 39: `re.sub(r"\bunclassified\b", "", label, flags=re.IGNORECASE)`.
`prev` is the character before the current position (for the left `\b`); when
the word is removed, scanning resumes after it with `prev` set to its last
character (`d` — only its word-character status matters). -/
def subUnclassifiedAux : Nat → Option Char → List Char → List Char
  | 0, _, s => s
  | _ + 1, _, [] => []
  | n + 1, prev, c :: t =>
    let boundaryBefore := match prev with
      | none => true
      | some p => !isWordChar p
    match (if boundaryBefore then ciMatchLit "unclassified".data (c :: t) else none) with
    | some rest =>
        let boundaryAfter := match rest with
          | [] => true
          | d :: _ => !isWordChar d
        if boundaryAfter then subUnclassifiedAux n (some 'd') rest
        else c :: subUnclassifiedAux n (some c) t
    | none => c :: subUnclassifiedAux n (some c) t

/-- The "unclassified" stage of line 39. -/
def subUnclassified (l : List Char) : List Char :=
  subUnclassifiedAux (l.length + 1) none l

/-- Line 41: `[-_]*Same[_\s]*Domains`, `re.IGNORECASE`. -/
def reSame : RE :=
  RE.seq (RE.star (RE.cls isDashUnd))
    (RE.seq (ciStrRE "Same".data) (RE.seq (RE.star (RE.cls isUndSpace)) (ciStrRE "Domains".data)))

/-- Python `str.strip(chars)`: remove leading and trailing characters of the
set. -/
def pyStripL (P : Char → Bool) (s : List Char) : List Char :=
  ((s.dropWhile P).reverse.dropWhile P).reverse

/-- Python `str.strip()` (line 54), whitespace only. -/
def pyStripWs (s : List Char) : List Char := pyStripL isSpaceChar s

/-- Python `str.replace(" ", "_")` (line 54). -/
def spaceToUnd (s : List Char) : List Char := s.map (fun c => if c == ' ' then '_' else c)

/-- Lines 47-51, the species group:
`[A-Za-z0-9]+(?:[_\s][A-Za-z0-9\.]+)*`. -/
def reSpecies : RE :=
  RE.seq (plusRE (RE.cls isAlnumChar))
    (RE.star (RE.seq (RE.cls isUndSpace) (plusRE (RE.cls isAlnumDot))))

/-- The cluster marker `---C\d+` under `re.IGNORECASE`. -/
def reMarker : RE :=
  RE.seq (litc '-') (RE.seq (litc '-') (RE.seq (litc '-')
    (RE.seq (RE.cls isCc) (plusRE (RE.cls Char.isDigit)))))

/-- The full extraction pattern of lines 47-51:
species, `[\s_-]+`, cluster. -/
def reExtract : RE := RE.seq reSpecies (RE.seq (plusRE (RE.cls isSepSUD)) reMarker)

/-- Recover the `species` and `cluster` groups from the extent of a match of
`reExtract`.  The match ends with the cluster digits; before them sits
`C`/`c` preceded by `---`; the separator run `[\s_-]+` extends maximally
leftwards from there (a species span always ends in `[A-Za-z0-9\.]`, which is
disjoint from `[\s_-]`, so this split coincides with the regex group
captures); everything before the separator run is the species group. -/
def splitSC (m : List Char) : Option (List Char × List Char) :=
  match m.reverse.dropWhile Char.isDigit with
  | cc :: '-' :: '-' :: '-' :: rest =>
      some ((rest.dropWhile isSepSUD).reverse,
        '-' :: '-' :: '-' :: cc :: (m.reverse.takeWhile Char.isDigit).reverse)
  | _ => none

/-- `pattern.search` of line 52 together with the group extraction of
lines 54-55. -/
def extractSC (s : List Char) : Option (List Char × List Char) :=
  match reSearchSplit reExtract s with
  | some (_, m, _) => splitSC m
  | none => none

/-- Lines 29-43 of `clean_label`: the ordered noise-stripping stages. -/
def cleanCore (label : List Char) (protein_name : List Char) : List Char :=
  let l1 := pyStripL isQuoteChar label
  let l2 := removeWPCodes l1
  let l3 := reSubDel reMulti l2
  let l4 := removeProteinName protein_name l3
  let l5 := subUnclassified l4
  let l6 := reSubDel reSame l5
  pyStripL isSpaceUnd l6

/-- `clean_label` (lines 12-59): strip noise, then extract species and
cluster; on success return `f"{species}_{cluster}"` with the species' spaces
turned into underscores, otherwise return the cleaned residual label. -/
def clean_label (label : List Char) (protein_name : List Char) : List Char :=
  let s := cleanCore label protein_name
  match extractSC s with
  | some (species, cluster) => spaceToUnd (pyStripWs species) ++ '_' :: pyStripWs cluster
  | none => s

/-- A quoted alternative of the scanner pattern (line 70):
`q([^q]+---C\d+[^q]*)q`. -/
def reQuoted (q : Char) : RE :=
  RE.seq (litc q) (RE.seq (plusRE (RE.cls (fun c => !(c == q))))
    (RE.seq reMarker (RE.seq (RE.star (RE.cls (fun c => !(c == q)))) (litc q))))

/-- The scanner pattern of lines 69-72:
`'[^']+---C\d+[^']*'  |  "[^"]+---C\d+[^"]*"  |  [A-Za-z0-9 _\.\-]+---C\d+`,
with `re.IGNORECASE`. -/
def reScanner : RE :=
  RE.alt (reQuoted squote) (RE.alt (reQuoted dquote)
    (RE.seq (plusRE (RE.cls isUnqChar)) reMarker))

/-- `clean_newick_string` (lines 61-76): replace every scanner match by
`clean_label` of the matched span. -/
def clean_newick_string (newick_str : List Char) (protein_name : List Char) : List Char :=
  reSubL reScanner (fun m => clean_label m protein_name) (newick_str.length + 1) newick_str

/-- `clean_label` on `String`s. -/
def clean_labelS (label : String) (protein_name : String) : String :=
  ⟨clean_label label.data protein_name.data⟩

/-- `clean_newick_string` on `String`s. -/
def clean_newick_stringS (newick_str : String) (protein_name : String) : String :=
  ⟨clean_newick_string newick_str.data protein_name.data⟩

/-! ## The pipeline orchestrator (`align`, lines 79-96; `tree`, lines 98-146)

The external processes and the file system are abstracted: a run's outcome is
its return code, the file system is an existence predicate plus a content
map, and the file operations a stage performs are recorded in an effect
trace. -/

/-- A file-system side effect performed by a pipeline stage. -/
inductive FileEffect where
  | read (path : String) : FileEffect
  | write (path : String) (content : String) : FileEffect
deriving DecidableEq

/-- `align` (lines 79-96): after `subprocess.run`, a non-zero return code
raises `RuntimeError("MUSCLE failed")`; `align` performs no file operation
itself. -/
def align (returncode : Int) : Except String Unit :=
  if returncode != 0 then Except.error "MUSCLE failed" else Except.ok ()

/-- The output-locating step of `tree` (lines 131-133): the single expected
path is checked with `os.path.exists`; if it is absent,
`FileNotFoundError` is raised.  No other path occurs in these lines. -/
def treeLocate (fsExists : String → Bool) (mega_output : String) : Except String String :=
  if !fsExists mega_output then
    Except.error ("Output file " ++ mega_output ++ " not found")
  else Except.ok mega_output

/-- `tree` (lines 98-146) from the point the external `megacc` process has
returned: non-zero return code raises `RuntimeError("MEGA-CC failed")`
(line 123-125) before any file is touched; then the output file is located
(lines 131-133); only then is it read, normalized with
`clean_newick_string(..., protein_name='alkene_reductase')` and written back
(lines 136-143). -/
def tree (returncode : Int) (fsExists : String → Bool) (readFile : String → String)
    (mega_output : String) : Except String Unit × List FileEffect :=
  if returncode != 0 then (Except.error "MEGA-CC failed", [])
  else
    match treeLocate fsExists mega_output with
    | Except.error e => (Except.error e, [])
    | Except.ok located =>
        (Except.ok (),
          [FileEffect.read located,
           FileEffect.write located (clean_newick_stringS (readFile located) "alkene_reductase")])

/-! ## The sequence filter (`uniprot_sequences.py`, lines 39-74)

`check_uniprot_single` performs a network lookup; it is abstracted as a
Boolean function `check` on accession codes. -/

/-- A FASTA record as produced by `SeqIO.parse`: a description line and the
residue string. -/
structure FastaRecord where
  description : String
  sequence : String
deriving DecidableEq

/-- Line 53: `((?:WP|XP|NP)_\d{9}\.\d)` — case-sensitive, underscore
separator only. -/
def reAccession : RE :=
  RE.seq (RE.alt (RE.seq (litc 'W') (litc 'P'))
      (RE.alt (RE.seq (litc 'X') (litc 'P')) (RE.seq (litc 'N') (litc 'P'))))
    (RE.seq (litc '_') (RE.seq (repRE 9 (RE.cls Char.isDigit))
      (RE.seq (litc '.') (RE.cls Char.isDigit))))

/-- `re.search(r'((?:WP|XP|NP)_\d{9}\.\d)', description)` of line 53. -/
def findAccession (s : String) : Option String :=
  (reSearchSplit reAccession s.data).map (fun pr => ⟨pr.2.1⟩)

/-- Lines 51-55: the `description → accession code` map.  A Python `dict` is
modelled as an association list; duplicate descriptions carry identical
codes (the search is a function of the description), so lookup order is
immaterial. -/
def wpData (sequences : List FastaRecord) : List (String × String) :=
  sequences.filterMap (fun sq =>
    (findAccession sq.description).map (fun code => (sq.description, code)))

/-- `filter_valid_sequences` (lines 39-72), up to the final `SeqIO.write`:
retain a sequence when its description carries no accession code, or when its
code passed the UniProt check (line 63, modelled by `check`). -/
def filter_valid_sequences (sequences : List FastaRecord) (check : String → Bool) :
    List FastaRecord :=
  let wpd := wpData sequences
  let validCodes := (wpd.map Prod.snd).filter check
  sequences.filter (fun sq =>
    match wpd.lookup sq.description with
    | none => true
    | some code => validCodes.contains code)

/-! ## Declarative semantics of the matcher, and derived scanner notions -/

/-- `Matches r u`: the word `u` belongs to the language of `r`. -/
inductive Matches : RE → List Char → Prop where
  | eps : Matches RE.eps []
  | cls {p : Char → Bool} {c : Char} (h : p c = true) : Matches (RE.cls p) [c]
  | seq {a b : RE} {u v : List Char} (ha : Matches a u) (hb : Matches b v) :
      Matches (RE.seq a b) (u ++ v)
  | altL {a b : RE} {u : List Char} (ha : Matches a u) : Matches (RE.alt a b) u
  | altR {a b : RE} {u : List Char} (hb : Matches b u) : Matches (RE.alt a b) u
  | starNil {a : RE} : Matches (RE.star a) []
  | starCons {a : RE} {u v : List Char} (ha : Matches a u) (hs : Matches (RE.star a) v) :
      Matches (RE.star a) (u ++ v)

/-- Does a cluster marker (`---C` or `---c` followed by a digit) start at the
head of the list? -/
def isMarkerStart : List Char → Bool
  | a :: b :: c :: d :: e :: _ => a == '-' && b == '-' && c == '-' && isCc d && e.isDigit
  | _ => false

/-- Does the list contain a cluster marker anywhere? -/
def hasMarkerL : List Char → Bool
  | [] => false
  | c :: t => isMarkerStart (c :: t) || hasMarkerL t

/-- The segmentation a global substitution induces on its input: `inl`
segments are copied verbatim, `inr` segments are the matched spans.  Mirrors
the recursion of `reSubL`. -/
def scanSegsL (r : RE) : Nat → List Char → List (List Char ⊕ List Char)
  | 0, s => [Sum.inl s]
  | _ + 1, [] => []
  | n + 1, c :: t =>
    match reM (reFuel (c :: t)) r (c :: t) some with
    | some rem =>
        if rem.length < (c :: t).length then
          Sum.inr (List.take ((c :: t).length - rem.length) (c :: t)) :: scanSegsL r n rem
        else Sum.inl [c] :: scanSegsL r n t
    | none => Sum.inl [c] :: scanSegsL r n t

/-- Rebuild a document from segments, transforming the matched spans with
`f`. -/
def joinSegs (f : List Char → List Char) : List (List Char ⊕ List Char) → List Char
  | [] => []
  | Sum.inl u :: rest => u ++ joinSegs f rest
  | Sum.inr u :: rest => f u ++ joinSegs f rest

/-- Every character class of `r` is contained in `P`. -/
def REchars (P : Char → Prop) : RE → Prop
  | RE.eps => True
  | RE.cls p => ∀ c, p c = true → P c
  | RE.seq a b => REchars P a ∧ REchars P b
  | RE.alt a b => REchars P a ∧ REchars P b
  | RE.star a => REchars P a

/-- A character legal inside a label of the tree-serialization grammar: not
a comma, parenthesis, colon or semicolon. -/
def isTreeSafeChar (c : Char) : Bool :=
  !(c == ',' || c == '(' || c == ')' || c == ':' || c == ';')

/-! ## Soundness of the matcher -/

theorem take_len_append (u v : List Char) :
    List.take ((u ++ v).length - v.length) (u ++ v) = u := by
  have h : (u ++ v).length - v.length = u.length := by simp
  rw [h, List.take_left]

/-- If the matcher succeeds, the input splits into a matched prefix in the
language of the pattern and a remainder fed to the continuation. -/
theorem reM_sound :
    ∀ (fuel : Nat) (r : RE) (s : List Char) (k : List Char → Option (List Char))
      (res : List Char), reM fuel r s k = some res →
      ∃ u v, s = u ++ v ∧ Matches r u ∧ k v = some res := by
  intro fuel
  induction fuel with
  | zero => intro r s k res h; simp [reM] at h
  | succ m IH =>
    intro r s k res h
    cases r with
    | eps =>
      exact ⟨[], s, rfl, Matches.eps, by simpa [reM] using h⟩
    | cls p =>
      cases s with
      | nil => simp [reM] at h
      | cons c t =>
        simp only [reM] at h
        split at h
        · exact ⟨[c], t, rfl, Matches.cls (by assumption), h⟩
        · exact absurd h (by simp)
    | seq a b =>
      simp only [reM] at h
      obtain ⟨u, v, hs, hu, hk⟩ := IH a s _ res h
      obtain ⟨u2, v2, hv, hu2, hk2⟩ := IH b v k res hk
      exact ⟨u ++ u2, v2, by rw [hs, hv, List.append_assoc], Matches.seq hu hu2, hk2⟩
    | alt a b =>
      simp only [reM] at h
      cases ha : reM m a s k with
      | some x =>
        rw [ha] at h
        simp only [Option.orElse] at h
        obtain ⟨u, v, hs, hu, hk⟩ := IH a s k res (by rw [ha, h])
        exact ⟨u, v, hs, Matches.altL hu, hk⟩
      | none =>
        rw [ha] at h
        simp only [Option.orElse] at h
        obtain ⟨u, v, hs, hu, hk⟩ := IH b s k res h
        exact ⟨u, v, hs, Matches.altR hu, hk⟩
    | star a =>
      simp only [reM] at h
      cases ha : reM m a s
          (fun t => if t.length < s.length then reM m (RE.star a) t k else none) with
      | some x =>
        rw [ha] at h
        simp only [Option.orElse] at h
        obtain ⟨u, v, hs, hu, hk⟩ := IH a s _ res (by rw [ha, h])
        split at hk
        · obtain ⟨u2, v2, hv, hu2, hk2⟩ := IH (RE.star a) v k res hk
          exact ⟨u ++ u2, v2, by rw [hs, hv, List.append_assoc],
            Matches.starCons hu hu2, hk2⟩
        · exact absurd hk (by simp)
      | none =>
        rw [ha] at h
        simp only [Option.orElse] at h
        exact ⟨[], s, rfl, Matches.starNil, h⟩

theorem matches_cls {p : Char → Bool} {u : List Char} (h : Matches (RE.cls p) u) :
    ∃ c, u = [c] ∧ p c = true := by
  cases h with
  | cls hp => exact ⟨_, rfl, hp⟩

theorem matches_seq {a b : RE} {w : List Char} (h : Matches (RE.seq a b) w) :
    ∃ u v, w = u ++ v ∧ Matches a u ∧ Matches b v := by
  cases h with
  | seq ha hb => exact ⟨_, _, rfl, ha, hb⟩

theorem matches_alt {a b : RE} {w : List Char} (h : Matches (RE.alt a b) w) :
    Matches a w ∨ Matches b w := by
  cases h with
  | altL ha => exact Or.inl ha
  | altR hb => exact Or.inr hb

/-! ## Matched scanner spans contain a cluster marker -/

theorem isMarkerStart_append :
    ∀ (l y : List Char), isMarkerStart l = true → isMarkerStart (l ++ y) = true
  | a :: b :: c :: d :: e :: rest, y, h => by simpa [isMarkerStart] using h
  | [], _, h => by simp [isMarkerStart] at h
  | [_], _, h => by simp [isMarkerStart] at h
  | [_, _], _, h => by simp [isMarkerStart] at h
  | [_, _, _], _, h => by simp [isMarkerStart] at h
  | [_, _, _, _], _, h => by simp [isMarkerStart] at h

theorem hasMarkerL_append_right :
    ∀ (u y : List Char), hasMarkerL u = true → hasMarkerL (u ++ y) = true
  | [], _, h => by simp [hasMarkerL] at h
  | c :: t, y, h => by
    rw [hasMarkerL] at h
    rw [List.cons_append, hasMarkerL]
    rcases Bool.or_eq_true_iff.mp h with h1 | h2
    · exact Bool.or_eq_true_iff.mpr (Or.inl (by
        simpa [List.cons_append] using isMarkerStart_append (c :: t) y h1))
    · exact Bool.or_eq_true_iff.mpr (Or.inr (hasMarkerL_append_right t y h2))

theorem hasMarkerL_append_left :
    ∀ (x u : List Char), hasMarkerL u = true → hasMarkerL (x ++ u) = true
  | [], _, h => h
  | c :: t, u, h => by
    rw [List.cons_append, hasMarkerL]
    exact Bool.or_eq_true_iff.mpr (Or.inr (hasMarkerL_append_left t u h))

theorem matches_marker_shape {v : List Char} (h : Matches reMarker v) :
    ∃ cc d rest, v = '-' :: '-' :: '-' :: cc :: d :: rest
      ∧ isCc cc = true ∧ d.isDigit = true := by
  unfold reMarker litc at h
  obtain ⟨u1, v1, hv, h1, h⟩ := matches_seq h
  obtain ⟨c1, hu1, hp1⟩ := matches_cls h1
  obtain ⟨u2, v2, hv2, h2, h⟩ := matches_seq h
  obtain ⟨c2, hu2, hp2⟩ := matches_cls h2
  obtain ⟨u3, v3, hv3, h3, h⟩ := matches_seq h
  obtain ⟨c3, hu3, hp3⟩ := matches_cls h3
  obtain ⟨u4, v4, hv4, h4, h⟩ := matches_seq h
  obtain ⟨c4, hu4, hp4⟩ := matches_cls h4
  unfold plusRE at h
  obtain ⟨u5, v5, hv5, h5, _⟩ := matches_seq h
  obtain ⟨c5, hu5, hp5⟩ := matches_cls h5
  have e1 : c1 = '-' := by simpa using hp1
  have e2 : c2 = '-' := by simpa using hp2
  have e3 : c3 = '-' := by simpa using hp3
  refine ⟨c4, c5, v5, ?_, hp4, hp5⟩
  subst hv hv2 hv3 hv4 hv5 hu1 hu2 hu3 hu4 hu5 e1 e2 e3
  simp

theorem hasMarkerL_of_marker_shape {m : List Char} (hm : Matches reMarker m) :
    hasMarkerL m = true := by
  obtain ⟨cc, d, rest, hv, hcc, hd⟩ := matches_marker_shape hm
  subst hv
  rw [hasMarkerL]
  exact Bool.or_eq_true_iff.mpr (Or.inl (by simp [isMarkerStart, hcc, hd]))

theorem matches_quoted_marker (q : Char) {u : List Char}
    (h : Matches (reQuoted q) u) : hasMarkerL u = true := by
  unfold reQuoted at h
  obtain ⟨u1, v1, hv, _, h⟩ := matches_seq h
  obtain ⟨u2, v2, hv2, _, h⟩ := matches_seq h
  obtain ⟨um, v3, hv3, hm, _⟩ := matches_seq h
  subst hv hv2 hv3
  exact hasMarkerL_append_left u1 _ (hasMarkerL_append_left u2 _
    (hasMarkerL_append_right um v3 (hasMarkerL_of_marker_shape hm)))

theorem matches_scanner_marker {u : List Char} (h : Matches reScanner u) :
    hasMarkerL u = true := by
  unfold reScanner at h
  rcases matches_alt h with h1 | h23
  · exact matches_quoted_marker squote h1
  · rcases matches_alt h23 with h2 | h3
    · exact matches_quoted_marker dquote h2
    · obtain ⟨u1, um, hv, _, hm⟩ := matches_seq h3
      subst hv
      exact hasMarkerL_append_left u1 um (hasMarkerL_of_marker_shape hm)

/-! ## The frame structure of the global substitution -/

theorem joinSegs_id (r : RE) :
    ∀ (n : Nat) (s : List Char), joinSegs id (scanSegsL r n s) = s := by
  intro n
  induction n with
  | zero => intro s; simp [scanSegsL, joinSegs]
  | succ n IH =>
    intro s
    cases s with
    | nil => simp [scanSegsL, joinSegs]
    | cons c t =>
      rw [scanSegsL]
      split
      · rename_i rem hm
        split
        · rename_i hlt
          obtain ⟨u, v, hs, _, hv⟩ := reM_sound _ _ _ _ _ hm
          have hvrem : v = rem := by simpa using hv
          have hs2 : c :: t = u ++ rem := by rw [hs, hvrem]
          rw [joinSegs, IH rem, hs2, take_len_append]
          simp
        · rw [joinSegs, IH t]; rfl
      · rw [joinSegs, IH t]; rfl

theorem joinSegs_f (r : RE) (f : List Char → List Char) :
    ∀ (n : Nat) (s : List Char), joinSegs f (scanSegsL r n s) = reSubL r f n s := by
  intro n
  induction n with
  | zero => intro s; simp [scanSegsL, joinSegs, reSubL]
  | succ n IH =>
    intro s
    cases s with
    | nil => simp [scanSegsL, joinSegs, reSubL]
    | cons c t =>
      rw [scanSegsL, reSubL]
      split
      · split
        · rw [joinSegs, IH _]
        · rw [joinSegs, IH t]; rfl
      · rw [joinSegs, IH t]; rfl

theorem scanSegs_inr_marker :
    ∀ (n : Nat) (s u : List Char),
      Sum.inr u ∈ scanSegsL reScanner n s → hasMarkerL u = true := by
  intro n
  induction n with
  | zero => intro s u hu; simp [scanSegsL] at hu
  | succ n IH =>
    intro s u hu
    cases s with
    | nil => simp [scanSegsL] at hu
    | cons c t =>
      rw [scanSegsL] at hu
      split at hu
      · rename_i rem hm
        split at hu
        · rcases List.mem_cons.mp hu with he | hrec
          · obtain ⟨w, v, hs, hw, hv⟩ := reM_sound _ _ _ _ _ hm
            have hvrem : v = rem := by simpa using hv
            have hs2 : c :: t = w ++ rem := by rw [hs, hvrem]
            have hu_eq : u = w := by
              have h2 := Sum.inr.inj he
              rw [h2, hs2, take_len_append]
            exact hu_eq ▸ matches_scanner_marker hw
          · exact IH rem u hrec
        · rcases List.mem_cons.mp hu with he | hrec
          · exact absurd he (by simp)
          · exact IH t u hrec
      · rcases List.mem_cons.mp hu with he | hrec
        · exact absurd he (by simp)
        · exact IH t u hrec

theorem reSub_scanner_no_marker (f : List Char → List Char) :
    ∀ (n : Nat) (s : List Char),
      hasMarkerL s = false → reSubL reScanner f n s = s := by
  intro n
  induction n with
  | zero => intro s _; rfl
  | succ n IH =>
    intro s hnm
    cases s with
    | nil => rfl
    | cons c t =>
      have ht : hasMarkerL t = false := by
        rw [hasMarkerL] at hnm
        exact (Bool.or_eq_false_iff.mp hnm).2
      rw [reSubL]
      split
      · rename_i rem hm
        split
        · rename_i hlt
          obtain ⟨w, v, hs, hw, hv⟩ := reM_sound _ _ _ _ _ hm
          have hvrem : v = rem := by simpa using hv
          have hs2 : c :: t = w ++ rem := by rw [hs, hvrem]
          have hmk : hasMarkerL (c :: t) = true := by
            rw [hs2]
            exact hasMarkerL_append_right w rem (matches_scanner_marker hw)
          rw [hmk] at hnm
          exact absurd hnm (by simp)
        · rw [IH t ht]
      · rw [IH t ht]

/-! ## Characters of a match lie in the pattern's classes -/

theorem matches_REchars {P : Char → Prop} :
    ∀ {r : RE} {u : List Char}, Matches r u → REchars P r → ∀ c ∈ u, P c := by
  intro r u h
  induction h with
  | eps => intro _ c hc; simp at hc
  | cls hp => intro hr c hc; rw [List.mem_singleton] at hc; subst hc; exact hr _ hp
  | seq ha hb iha ihb =>
    intro hr c hc
    rcases List.mem_append.mp hc with h1 | h2
    · exact iha hr.1 c h1
    · exact ihb hr.2 c h2
  | altL ha ih => intro hr; exact ih hr.1
  | altR hb ih => intro hr; exact ih hr.2
  | starNil => intro _ c hc; simp at hc
  | starCons ha hs iha ihs =>
    intro hr c hc
    rcases List.mem_append.mp hc with h1 | h2
    · exact iha hr c h1
    · exact ihs hr c h2

theorem safe_of_class (p : Char → Bool)
    (h1 : p ',' = false) (h2 : p '(' = false) (h3 : p ')' = false)
    (h4 : p ':' = false) (h5 : p ';' = false) :
    ∀ c, p c = true → isTreeSafeChar c = true := by
  intro c hc
  have k : ∀ d : Char, p d = false → (c == d) = false := by
    intro d hd
    cases hcd : c == d with
    | false => rfl
    | true =>
      have he : c = d := eq_of_beq hcd
      rw [← he] at hd
      rw [hc] at hd
      exact absurd hd (by simp)
  simp [isTreeSafeChar, k ',' h1, k '(' h2, k ')' h3, k ':' h4, k ';' h5]

theorem reExtract_safe : REchars (fun c => isTreeSafeChar c = true) reExtract := by
  simp only [reExtract, reSpecies, reMarker, plusRE, litc, REchars]
  repeat' apply And.intro
  all_goals
    first
    | trivial
    | exact safe_of_class _ (by decide) (by decide) (by decide) (by decide) (by decide)

/-! ## Soundness of the search -/

theorem reSearchSplit_sound (r : RE) :
    ∀ (s pre m post : List Char), reSearchSplit r s = some (pre, m, post) →
      s = pre ++ m ++ post ∧ (m = [] ∨ Matches r m) := by
  intro s
  induction s with
  | nil => intro pre m post h; simp [reSearchSplit] at h
  | cons c t IH =>
    intro pre m post h
    rw [reSearchSplit] at h
    split at h
    · rename_i rem hm
      split at h
      · simp only [Option.some.injEq, Prod.mk.injEq] at h
        obtain ⟨hpre, hm2, hpost⟩ := h
        obtain ⟨w, v, hs, hw, hv⟩ := reM_sound _ _ _ _ _ hm
        have hvrem : v = rem := by simpa using hv
        have hs2 : c :: t = w ++ rem := by rw [hs, hvrem]
        have hmw : m = w := by rw [← hm2, hs2, take_len_append]
        refine ⟨?_, Or.inr (hmw ▸ hw)⟩
        rw [← hpre, ← hpost, hmw, hs2]
        simp
      · simp only [Option.some.injEq, Prod.mk.injEq] at h
        obtain ⟨hpre, hm2, hpost⟩ := h
        refine ⟨?_, Or.inl hm2.symm⟩
        rw [← hpre, ← hm2, ← hpost]
        simp
    · rw [Option.map_eq_some'] at h
      obtain ⟨⟨a, b, d⟩, hrec, he⟩ := h
      simp only [Prod.mk.injEq] at he
      obtain ⟨hpre, hm2, hpost⟩ := he
      subst hpre hm2 hpost
      obtain ⟨ha, hb⟩ := IH a b d hrec
      refine ⟨?_, hb⟩
      rw [ha]
      simp

/-! ## Membership lemmas for the group splitter and the strippers -/

theorem mem_pyStripL {P : Char → Bool} {s : List Char} {c : Char}
    (h : c ∈ pyStripL P s) : c ∈ s := by
  unfold pyStripL at h
  rw [List.mem_reverse] at h
  have h2 := List.dropWhile_subset _ h
  rw [List.mem_reverse] at h2
  exact List.dropWhile_subset _ h2

theorem splitSC_mem : ∀ {m sp cl : List Char}, splitSC m = some (sp, cl) →
    (∀ c ∈ sp, c ∈ m) ∧ (∀ c ∈ cl, c = '-' ∨ c ∈ m) := by
  intro m sp cl h
  unfold splitSC at h
  split at h
  · rename_i cc rest heq
    simp only [Option.some.injEq, Prod.mk.injEq] at h
    obtain ⟨hsp, hcl⟩ := h
    have hmemdrop : ∀ c ∈ m.reverse.dropWhile Char.isDigit, c ∈ m := by
      intro c hc
      exact List.mem_reverse.mp (List.dropWhile_subset _ hc)
    have hmemrest : ∀ c ∈ rest, c ∈ m := by
      intro c hc
      apply hmemdrop
      rw [heq]
      exact List.mem_cons_of_mem _ (List.mem_cons_of_mem _
        (List.mem_cons_of_mem _ (List.mem_cons_of_mem _ hc)))
    have hcc : cc ∈ m := by
      apply hmemdrop
      rw [heq]
      exact List.mem_cons_self _ _
    constructor
    · intro c hc
      rw [← hsp] at hc
      rw [List.mem_reverse] at hc
      exact hmemrest c (List.dropWhile_subset _ hc)
    · intro c hc
      rw [← hcl] at hc
      rcases List.mem_cons.mp hc with rfl | hc
      · exact Or.inl rfl
      rcases List.mem_cons.mp hc with rfl | hc
      · exact Or.inl rfl
      rcases List.mem_cons.mp hc with rfl | hc
      · exact Or.inl rfl
      rcases List.mem_cons.mp hc with rfl | hc
      · exact Or.inr hcc
      · rw [List.mem_reverse] at hc
        exact Or.inr (List.mem_reverse.mp (List.takeWhile_subset _ hc))
  · exact absurd h (by simp)

/-! ## Lookup lemmas for the sequence filter -/

theorem lookup_eq_none_strings (l : List (String × String)) (a : String)
    (h : ∀ p ∈ l, p.1 ≠ a) : l.lookup a = none := by
  induction l with
  | nil => rfl
  | cons p t ih =>
    obtain ⟨k, b⟩ := p
    have hk : k ≠ a := h (k, b) (List.mem_cons_self _ _)
    have hbeq : (a == k) = false := beq_eq_false_iff_ne.mpr (Ne.symm hk)
    simp only [List.lookup, hbeq]
    exact ih (fun q hq => h q (List.mem_cons_of_mem _ hq))

theorem wpData_lookup_none (sequences : List FastaRecord) (d : String)
    (h : findAccession d = none) : (wpData sequences).lookup d = none := by
  apply lookup_eq_none_strings
  intro p hp
  rw [wpData] at hp
  obtain ⟨sq, _, hf⟩ := List.mem_filterMap.mp hp
  cases ho : findAccession sq.description with
  | none => rw [ho] at hf; simp at hf
  | some code =>
    rw [ho] at hf
    simp only [Option.map_some'] at hf
    have hp2 : (sq.description, code) = p := Option.some.inj hf
    have hp1 : p.1 = sq.description := by rw [← hp2]
    intro heq
    rw [hp1] at heq
    rw [heq] at ho
    rw [h] at ho
    exact absurd ho (by simp)

/-! ## Claims -/

/-- Claim C1 is false on the code: `clean_label` never abbreviates the genus.
`Escherichia_coli_---C5` has two species tokens and the second does not begin
with `sp`, yet the label is returned unchanged, not as `E_coli_---C5`. -/
theorem C1_counterexample :
    clean_labelS "Escherichia_coli_---C5" "alkene_reductase" = "Escherichia_coli_---C5"
    ∧ clean_labelS "Escherichia_coli_---C5" "alkene_reductase" ≠ "E_coli_---C5" := by
  constructor
  · decide
  · decide

/-- Claim C1 (amended): the rewrite step never abbreviates the species.
Whenever the species+cluster extraction succeeds, the full species tokens
(spaces turned into underscores, surrounding whitespace stripped) are emitted
joined to the cluster marker, whether or not there are two or more tokens and
whatever the second token is; in particular `Escherichia_coli_---C5` is
emitted unchanged. -/
theorem C1_species_never_abbreviated :
    (∀ label protein_name species cluster : List Char,
        extractSC (cleanCore label protein_name) = some (species, cluster) →
        clean_label label protein_name
          = spaceToUnd (pyStripWs species) ++ '_' :: pyStripWs cluster)
    ∧ clean_labelS "Escherichia_coli_---C5" "alkene_reductase"
        = "Escherichia_coli_---C5" := by
  constructor
  · intro label protein_name species cluster h
    simp only [clean_label, h]
  · decide

/-- Witness for the amended claim C1 at a concrete input. -/
theorem C1_witness :
    clean_label "Escherichia_coli_---C5".data "alkene_reductase".data
      = spaceToUnd (pyStripWs "Escherichia_coli".data) ++ '_' :: pyStripWs "---C5".data :=
  C1_species_never_abbreviated.1 "Escherichia_coli_---C5".data "alkene_reductase".data
    "Escherichia_coli".data "---C5".data (by decide)

/-- Claim C2 is right about the intent but the code is not idempotent: on the
document `alkene reductase ---C7` the first pass emits
`alkene_reductase_---C7` (the space-separated protein phrase is not removed,
see the protein-name stage), and a second pass then strips the now
underscore-separated phrase, yielding `---C7`. -/
theorem C2_not_idempotent :
    clean_newick_stringS "alkene reductase ---C7" "alkene_reductase"
      = "alkene_reductase_---C7"
    ∧ clean_newick_stringS "alkene_reductase_---C7" "alkene_reductase" = "---C7"
    ∧ clean_newick_stringS
        (clean_newick_stringS "alkene reductase ---C7" "alkene_reductase")
        "alkene_reductase"
      ≠ clean_newick_stringS "alkene reductase ---C7" "alkene_reductase" := by
  refine ⟨by decide, by decide, by decide⟩

/-- Claim C3 is right about the intent (the comment on lines 35-36 says the
pattern should match both `alkene_reductase` and `alkene reductase`), but on
Python 3.7+ `re.escape` leaves `_` unescaped, the `'\_'` replacement is a
no-op, and the stage removes only the underscore-separated literal: the
space-separated phrase survives into the output. -/
theorem C3_protein_phrase_not_removed :
    String.mk (removeProteinName "alkene_reductase".data "alkene reductase ---C7".data)
      = "alkene reductase ---C7"
    ∧ String.mk (removeProteinName "alkene_reductase".data "alkene_reductase ---C7".data)
      = " ---C7"
    ∧ clean_labelS "alkene reductase ---C7" "alkene_reductase"
      = "alkene_reductase_---C7" := by
  refine ⟨by decide, by decide, by decide⟩

/-- Claim C4 is false on the code: the accession-stripping stage of
`clean_label` matches only the exact uppercase prefix `WP`; `xp_123456789.1`
and `NP 987654321.2` are not removed. -/
theorem C4_counterexample :
    String.mk (removeWPCodes "xp_123456789.1".data) = "xp_123456789.1"
    ∧ String.mk (removeWPCodes "NP 987654321.2".data) = "NP 987654321.2" := by
  constructor
  · decide
  · decide

/-- Claim C4 (amended): the stage removes exactly the tokens with
case-sensitive prefix `WP`, a whitespace-or-underscore separator, nine
digits, a dot and one digit; `XP`/`NP`/lowercase prefixes are left alone.
(The separate sequence filter recognizes `WP`/`XP`/`NP`, also
case-sensitively and with an underscore separator only.) -/
theorem C4_only_uppercase_WP :
    String.mk (removeWPCodes "WP_058328214.1".data) = ""
    ∧ String.mk (removeWPCodes "WP 062476070.1".data) = ""
    ∧ String.mk (removeWPCodes "XP_123456789.1".data) = "XP_123456789.1"
    ∧ String.mk (removeWPCodes "wp_123456789.1".data) = "wp_123456789.1"
    ∧ findAccession "XP_123456789.1" = some "XP_123456789.1"
    ∧ findAccession "xp_123456789.1" = none
    ∧ findAccession "NP 987654321.2" = none := by
  refine ⟨by decide, by decide, by decide, by decide, by decide, by decide, by decide⟩

/-- Claim C5 is false on the code: `tree` checks only the single expected
output path.  Here every path other than the expected one exists (so any
same-base-name alternate-extension fallback exists), yet the stage fails. -/
theorem C5_counterexample :
    treeLocate (fun p => !(p == "tree.nwk")) "tree.nwk"
      = Except.error "Output file tree.nwk not found" := rfl

/-- Claim C5 (amended): no fallback path is probed.  The stage checks only
the expected tree-builder output path: if it is absent the stage fails
fatally with an output-missing error regardless of what other paths exist,
and if it is present normalization targets exactly that path. -/
theorem C5_expected_path_only (fsExists : String → Bool) (mega_output : String) :
    (fsExists mega_output = false →
      treeLocate fsExists mega_output
        = Except.error ("Output file " ++ mega_output ++ " not found"))
    ∧ (fsExists mega_output = true →
      treeLocate fsExists mega_output = Except.ok mega_output) := by
  constructor <;> intro h <;> simp [treeLocate, h]

/-- Witness for the amended claim C5 at a concrete input. -/
theorem C5_witness :
    treeLocate (fun _ => true) "x.nwk" = Except.ok "x.nwk" :=
  (C5_expected_path_only (fun _ => true) "x.nwk").2 rfl

/-- Claim C6 is false on the code: the quoted span `'(---C5'` is matched by
the scanner, its parse degrades to the pass-through residue `(---C5`, and the
spliced replacement therefore contains a parenthesis. -/
theorem C6_counterexample :
    reSearchSplit reScanner "\x27(---C5\x27".data
      = some ([], "\x27(---C5\x27".data, [])
    ∧ clean_labelS "\x27(---C5\x27" "alkene_reductase" = "(---C5"
    ∧ clean_newick_stringS "\x27(---C5\x27" "alkene_reductase" = "(---C5"
    ∧ '(' ∈ (clean_labelS "\x27(---C5\x27" "alkene_reductase").data
    ∧ isTreeSafeChar '(' = false := by
  refine ⟨by decide, by decide, by decide, by decide, by decide⟩

/-- Claim C6 (amended): whenever the species+cluster extraction succeeds on
the cleaned label, the spliced replacement contains no comma, parenthesis,
colon or semicolon — its characters come from the extraction pattern's
classes (alphanumerics, underscore, dot, whitespace, hyphen, `C`/`c`,
digits), from the space-to-underscore substitution, or are the literal
hyphens of the cluster marker.  Only a span whose parse degrades to the
pass-through residue can retain such characters. -/
theorem C6_splice_safe (label protein_name : String) (species cluster : List Char)
    (h : extractSC (cleanCore label.data protein_name.data) = some (species, cluster)) :
    (clean_labelS label protein_name).data.all isTreeSafeChar = true := by
  have hdata : (clean_labelS label protein_name).data
      = clean_label label.data protein_name.data := rfl
  rw [hdata]
  simp only [clean_label, h]
  rw [List.all_eq_true]
  have hsplit := h
  unfold extractSC at hsplit
  split at hsplit
  · rename_i pre m post heq
    obtain ⟨_, hMm⟩ := reSearchSplit_sound _ _ _ _ _ heq
    have hM : Matches reExtract m := by
      rcases hMm with hnil | hM
      · rw [hnil] at hsplit
        simp [splitSC] at hsplit
      · exact hM
    have hsafe_m : ∀ c ∈ m, isTreeSafeChar c = true := matches_REchars hM reExtract_safe
    obtain ⟨hsp_mem, hcl_mem⟩ := splitSC_mem hsplit
    intro c hc
    rcases List.mem_append.mp hc with hc1 | hc2
    · obtain ⟨a, ha, hfa⟩ := List.mem_map.mp hc1
      split at hfa
      · rw [← hfa]; decide
      · rw [← hfa]
        exact hsafe_m a (hsp_mem a (mem_pyStripL ha))
    · rcases List.mem_cons.mp hc2 with rfl | hc3
      · decide
      · rcases hcl_mem c (mem_pyStripL hc3) with rfl | hcm
        · decide
        · exact hsafe_m c hcm
  · exact absurd hsplit (by simp)

/-- Witness for the amended claim C6 at a concrete input. -/
theorem C6_witness :
    (clean_labelS "Escherichia_coli_---C5" "alkene_reductase").data.all isTreeSafeChar
      = true :=
  C6_splice_safe "Escherichia_coli_---C5" "alkene_reductase"
    "Escherichia_coli".data "---C5".data (by decide)

/-- Claim C7: the scanner's output decomposes against the segmentation of the
input: untouched (`inl`) segments rebuild the input verbatim and the output
replaces exactly the matched (`inr`) spans; every matched span contains a
cluster marker (`---C`/`---c` followed by a digit); and a document with no
cluster marker at all is returned byte-for-byte unchanged. -/
theorem C7_frame (doc protein_name : String) :
    joinSegs id (scanSegsL reScanner (doc.data.length + 1) doc.data) = doc.data
    ∧ (clean_newick_stringS doc protein_name).data
        = joinSegs (fun m => clean_label m protein_name.data)
            (scanSegsL reScanner (doc.data.length + 1) doc.data)
    ∧ (∀ u, Sum.inr u ∈ scanSegsL reScanner (doc.data.length + 1) doc.data →
        hasMarkerL u = true)
    ∧ (hasMarkerL doc.data = false → clean_newick_stringS doc protein_name = doc) := by
  refine ⟨joinSegs_id _ _ _, (joinSegs_f _ _ _ _).symm,
    fun u hu => scanSegs_inr_marker _ _ u hu, ?_⟩
  intro hnm
  have h2 : clean_newick_string doc.data protein_name.data = doc.data :=
    reSub_scanner_no_marker _ _ _ hnm
  unfold clean_newick_stringS
  rw [h2]

/-- Witness for claim C7 at a concrete marker-free document. -/
theorem C7_witness :
    clean_newick_stringS "(A:0.1,B:0.2);" "alkene_reductase" = "(A:0.1,B:0.2);" :=
  (C7_frame "(A:0.1,B:0.2);" "alkene_reductase").2.2.2 (by decide)

/-- Claim C8: the two documented examples of `clean_label` with the default
protein name. -/
theorem C8_examples :
    clean_labelS "WP_058328214.1_alkene_reductase_Sinorhizobium_sp._Sb3_---C28---Same_Domains"
        "alkene_reductase" = "Sinorhizobium_sp._Sb3_---C28"
    ∧ clean_labelS
        "WP 062476070.1 MULTISPECIES: alkene reductase unclassified Rhizobium ---C22---Same Domains"
        "alkene_reductase" = "Rhizobium_---C22" := by
  constructor
  · decide
  · decide

/-- Claim C9: a non-zero return code of the external aligner or tree-builder
makes the stage fail with the tool-failure error before any file is read,
normalized or written (the effect trace is empty). -/
theorem C9_nonzero_exit_aborts (returncode : Int) (fsExists : String → Bool)
    (readFile : String → String) (mega_output : String) (h : returncode ≠ 0) :
    align returncode = Except.error "MUSCLE failed"
    ∧ tree returncode fsExists readFile mega_output
        = (Except.error "MEGA-CC failed", []) := by
  have hb : (returncode != 0) = true := by simpa using h
  constructor
  · simp [align, hb]
  · simp [tree, hb]

/-- Witness for claim C9 at a concrete non-zero return code. -/
theorem C9_witness :
    align 1 = Except.error "MUSCLE failed"
    ∧ tree 1 (fun _ => true) (fun _ => "t") "o.nwk"
        = (Except.error "MEGA-CC failed", []) :=
  C9_nonzero_exit_aborts 1 (fun _ => true) (fun _ => "t") "o.nwk" (by decide)

/-- Claim C10: the sequence filter keeps every sequence whose description
carries no accession code, whatever the external validation returns, and the
output is an order-preserving subsequence of the input. -/
theorem C10_no_accession_retained (sequences : List FastaRecord)
    (check : String → Bool) :
    (filter_valid_sequences sequences check).Sublist sequences
    ∧ ∀ sq ∈ sequences, findAccession sq.description = none →
        sq ∈ filter_valid_sequences sequences check := by
  constructor
  · simp only [filter_valid_sequences]
    exact List.filter_sublist _
  · intro sq hmem hnone
    simp only [filter_valid_sequences]
    rw [List.mem_filter]
    refine ⟨hmem, ?_⟩
    rw [wpData_lookup_none sequences sq.description hnone]

/-- Witness for claim C10 at a concrete input with a rejecting validator. -/
theorem C10_witness :
    (⟨"plain protein", "MKT"⟩ : FastaRecord)
      ∈ filter_valid_sequences
          [⟨"plain protein", "MKT"⟩, ⟨"WP_123456789.1 x", "AAA"⟩] (fun _ => false) :=
  (C10_no_accession_retained
      [⟨"plain protein", "MKT"⟩, ⟨"WP_123456789.1 x", "AAA"⟩] (fun _ => false)).2
    ⟨"plain protein", "MKT"⟩ (by decide) (by decide)
